import Mathlib

/-!
Shallow embedding of the stoogesort crate.

The crate exposes a trait Stooge with three entry points
(stooge_sort, stooge_sort_by, stooge_sort_by_key) for slices,
all delegating to one free recursive function stooge_sort that
operates on an inclusive index range of a mutable slice.

Here a slice is modelled as a List, in-place mutation as returning
the new list, and a panicking index access as the Option monad:
a result of none models an out-of-bounds panic.
-/

namespace Stoogesort

universe u v

variable {α : Type u} {κ : Type v}

/-- Embedding of the third-partition computation on line 111 of src/lib.rs:
`let third = (right - left + 1) / 3` (usize division truncates). -/
def third (left right : Nat) : Nat := (right - left + 1) / 3

/-- Embedding of the free function `stooge_sort` (src/lib.rs lines 102-116).
The accesses `v[left]`, `v[right]` and `v.swap(left, right)` panic when out of
bounds, modelled by the none case; the swap is modelled by two `set` calls
writing each endpoint element to the other position. -/
def stooge_sort (isLess : α → α → Bool) (v : List α) (left right : Nat) :
    Option (List α) := do
  let a ← v[left]?
  let b ← v[right]?
  let v1 := if !(isLess a b) then (v.set left b).set right a else v
  if h : right - left + 1 > 2 then
    let v2 ← stooge_sort isLess v1 left (right - third left right)
    let v3 ← stooge_sort isLess v2 (left + third left right) right
    stooge_sort isLess v3 left (right - third left right)
  else pure v1
termination_by right - left
decreasing_by
  · simp only [third] at *; omega
  · simp only [third] at *; omega
  · simp only [third] at *; omega

/-- Embedding of `<[T] as Stooge<T>>::stooge_sort` (src/lib.rs lines 68-75):
sort by the natural ordering, using `T::lt` as the predicate. -/
def Stooge.stooge_sort [LinearOrder α] (v : List α) : Option (List α) :=
  if v.isEmpty || v.length == 1 then some v
  else Stoogesort.stooge_sort (fun a b => decide (a < b)) v 0 (v.length - 1)

/-- Embedding of `<[T] as Stooge<T>>::stooge_sort_by` (src/lib.rs lines 76-86):
sort by a comparator returning an Ordering; the predicate passed to the core
is `compare(a, b) == Ordering::Less`. -/
def Stooge.stooge_sort_by (compare : α → α → Ordering) (v : List α) :
    Option (List α) :=
  if v.isEmpty || v.length == 1 then some v
  else Stoogesort.stooge_sort (fun a b => compare a b == Ordering.lt) v 0
    (v.length - 1)

/-- Embedding of `<[T] as Stooge<T>>::stooge_sort_by_key` (src/lib.rs lines
87-99): sort by a key extraction function; the predicate recomputes the key of
both arguments on every comparison: `compare(a).lt(&compare(b))`. -/
def Stooge.stooge_sort_by_key [LinearOrder κ] (compare : α → κ) (v : List α) :
    Option (List α) :=
  if v.isEmpty || v.length == 1 then some v
  else Stoogesort.stooge_sort (fun a b => decide (compare a < compare b)) v 0
    (v.length - 1)

/-- Instrumented variant of the core recursion: identical control flow to
`stooge_sort`, additionally returning how many predicate invocations and how
many swaps the call performs.  Each call evaluates the predicate exactly once
(line 106) and swaps at most once (line 107). -/
def stooge_sort_instr (isLess : α → α → Bool) (v : List α) (left right : Nat) :
    Option (List α × Nat × Nat) := do
  let a ← v[left]?
  let b ← v[right]?
  let doSwap := !(isLess a b)
  let v1 := if doSwap then (v.set left b).set right a else v
  let s1 : Nat := if doSwap then 1 else 0
  if h : right - left + 1 > 2 then
    let p2 ← stooge_sort_instr isLess v1 left (right - third left right)
    let p3 ← stooge_sort_instr isLess p2.1 (left + third left right) right
    let p4 ← stooge_sort_instr isLess p3.1 left (right - third left right)
    pure (p4.1, 1 + p2.2.1 + p3.2.1 + p4.2.1, s1 + p2.2.2 + p3.2.2 + p4.2.2)
  else pure (v1, 1, s1)
termination_by right - left
decreasing_by
  · simp only [third] at *; omega
  · simp only [third] at *; omega
  · simp only [third] at *; omega

/-- Instrumented variant of the trait entry points: all three wrappers share
the same shape (src/lib.rs lines 68-99), differing only in the predicate; on a
slice of length 0 or 1 they return at once without calling the core, hence
with no comparison and no swap. -/
def Stooge.instrumented (isLess : α → α → Bool) (v : List α) :
    Option (List α × Nat × Nat) :=
  if v.isEmpty || v.length == 1 then some (v, 0, 0)
  else stooge_sort_instr isLess v 0 (v.length - 1)

/-- Recursion depth of the core on the inclusive range [left, right]: the
control flow of `stooge_sort` depends only on the indices, never on the data,
so the depth is a pure function of the range. -/
def stoogeDepth (left right : Nat) : Nat :=
  if h : 2 < right - left + 1 then
    1 + max (stoogeDepth left (right - third left right))
        (stoogeDepth (left + third left right) right)
  else 1
termination_by right - left
decreasing_by
  · simp only [third] at *; omega
  · simp only [third] at *; omega

/-- Contents of the inclusive index range [left, right] of a list; empty when
left exceeds right. -/
def slice (v : List α) (left right : Nat) : List α :=
  (v.drop left).take (right + 1 - left)

/-- The range [left, right] of w is sorted for the predicate: the predicate
never reports an element of the range as strictly preceded by a later one. -/
def sortedOn (isLess : α → α → Bool) (w : List α) (left right : Nat) : Prop :=
  ∀ i j a b, left ≤ i → i < j → j ≤ right →
    w[i]? = some a → w[j]? = some b → ¬ isLess b a

/-! Basic list lemmas about set, swap, and slices. -/

theorem set_self : ∀ (v : List α) (i : Nat) (a : α),
    v[i]? = some a → v.set i a = v
  | x :: t, 0, a, h => by simp at h; simp [h]
  | x :: t, i + 1, a, h => by
      simp only [List.getElem?_cons_succ] at h
      simp [List.set_cons_succ, set_self t i a h]

theorem perm_set_cons : ∀ (t : List α) (m : Nat) (a b : α),
    t[m]? = some b → List.Perm (b :: t.set m a) (a :: t)
  | y :: s, 0, a, b, h => by
      simp only [List.getElem?_cons_zero, Option.some.injEq] at h
      simp only [List.set_cons_zero]
      rw [← h]
      exact List.Perm.swap a y s
  | y :: s, m + 1, a, b, h => by
      simp only [List.getElem?_cons_succ] at h
      have h1 : List.Perm (b :: y :: s.set m a) (y :: b :: s.set m a) :=
        List.Perm.swap y b _
      have h2 : List.Perm (y :: b :: s.set m a) (y :: a :: s) :=
        (perm_set_cons s m a b h).cons y
      have h3 : List.Perm (y :: a :: s) (a :: y :: s) := List.Perm.swap a y s
      simpa using (h1.trans h2).trans h3

theorem set_set_perm : ∀ (v : List α) (i j : Nat) (a b : α),
    v[i]? = some a → v[j]? = some b → List.Perm ((v.set i b).set j a) v
  | x :: t, 0, 0, a, b, hi, hj => by
      simp at hi hj
      simp [hi, hj]
  | x :: t, 0, m + 1, a, b, hi, hj => by
      simp at hi
      simp only [List.getElem?_cons_succ] at hj
      simp only [List.set_cons_zero, List.set_cons_succ]
      rw [hi]
      exact perm_set_cons t m a b hj
  | x :: t, m + 1, 0, a, b, hi, hj => by
      simp at hj
      simp only [List.getElem?_cons_succ] at hi
      simp only [List.set_cons_zero, List.set_cons_succ]
      rw [hj]
      exact perm_set_cons t m b a hi
  | x :: t, m + 1, k + 1, a, b, hi, hj => by
      simp only [List.getElem?_cons_succ] at hi hj
      simpa using (set_set_perm t m k a b hi hj).cons x

theorem getElem?_slice (v : List α) (l r k : Nat) :
    (slice v l r)[k]? = if k < r + 1 - l then v[l + k]? else none := by
  simp [slice, List.getElem?_take, List.getElem?_drop]

theorem length_slice (v : List α) (l r : Nat) (h1 : l ≤ r)
    (h2 : r < v.length) : (slice v l r).length = r + 1 - l := by
  rw [slice, List.length_take, List.length_drop, Nat.min_def]
  split <;> omega

theorem length_slice_le (v : List α) (l r : Nat) :
    (slice v l r).length ≤ r + 1 - l := by
  rw [slice, List.length_take, List.length_drop, Nat.min_def]
  split <;> omega

theorem mem_slice_iff (v : List α) (l r : Nat) (x : α) :
    x ∈ slice v l r ↔ ∃ p, l ≤ p ∧ p ≤ r ∧ v[p]? = some x := by
  rw [List.mem_iff_getElem?]
  constructor
  · rintro ⟨k, hk⟩
    rw [getElem?_slice] at hk
    by_cases h : k < r + 1 - l
    · rw [if_pos h] at hk
      exact ⟨l + k, by omega, by omega, hk⟩
    · rw [if_neg h] at hk
      exact absurd hk (by simp)
  · rintro ⟨p, hp1, hp2, hp4⟩
    refine ⟨p - l, ?_⟩
    rw [getElem?_slice, if_pos (by omega)]
    have hpl : l + (p - l) = p := by omega
    rw [hpl]
    exact hp4

theorem slice_eq_of_agree {v w : List α} {l r : Nat}
    (h : ∀ i, l ≤ i → i ≤ r → v[i]? = w[i]?) : slice v l r = slice w l r := by
  apply List.ext_getElem?
  intro k
  rw [getElem?_slice, getElem?_slice]
  split
  · exact h (l + k) (by omega) (by omega)
  · rfl

theorem slice_split (v : List α) {l m r : Nat} (h1 : l ≤ m) (h2 : m ≤ r) :
    slice v l r = slice v l m ++ slice v (m + 1) r := by
  have harith : r + 1 - l = (m + 1 - l) + (r - m) := by omega
  rw [slice, harith, List.take_add]
  congr 1
  rw [slice, List.drop_drop]
  have hd : l + (m + 1 - l) = m + 1 := by omega
  rw [hd]
  congr 1
  omega

theorem eq_slice_decomp (v : List α) {l r : Nat} (h : l ≤ r) :
    v = v.take l ++ (slice v l r ++ v.drop (r + 1)) := by
  conv_lhs => rw [← List.take_append_drop l v]
  congr 1
  rw [slice]
  conv_lhs => rw [← List.take_append_drop (r + 1 - l) (v.drop l)]
  congr 1
  rw [List.drop_drop]
  congr 1
  omega

theorem stooge_sort_eq (isLess : α → α → Bool) (v : List α) (l r : Nat)
    (a b : α) (ha : v[l]? = some a) (hb : v[r]? = some b) :
    stooge_sort isLess v l r =
      (if r - l + 1 > 2 then
        (stooge_sort isLess (if !(isLess a b) then (v.set l b).set r a else v)
            l (r - third l r)).bind fun v2 =>
          (stooge_sort isLess v2 (l + third l r) r).bind fun v3 =>
            stooge_sort isLess v3 l (r - third l r)
      else some (if !(isLess a b) then (v.set l b).set r a else v)) := by
  rw [stooge_sort, ha, hb]
  simp only [Option.pure_def, Option.bind_eq_bind, Option.some_bind]
  by_cases h : r - l + 1 > 2
  · rw [dif_pos h, if_pos h]
  · rw [dif_neg h, if_neg h]

theorem slice_perm_of_perm_agree {v w : List α} {l r : Nat}
    (hperm : List.Perm w v) (hagree : ∀ i, i < l ∨ r < i → w[i]? = v[i]?)
    (h : l ≤ r) : List.Perm (slice w l r) (slice v l r) := by
  have htake : w.take l = v.take l := by
    apply List.ext_getElem?
    intro k
    rw [List.getElem?_take, List.getElem?_take]
    split
    · exact hagree k (Or.inl (by omega))
    · rfl
  have hdrop : w.drop (r + 1) = v.drop (r + 1) := by
    apply List.ext_getElem?
    intro k
    rw [List.getElem?_drop, List.getElem?_drop]
    exact hagree (r + 1 + k) (Or.inr (by omega))
  have hw := eq_slice_decomp w h
  have hv := eq_slice_decomp v h
  rw [hw, hv, htake, hdrop] at hperm
  have h1 := (List.perm_append_left_iff (v.take l)).mp hperm
  exact (List.perm_append_right_iff (v.drop (r + 1))).mp h1

theorem third_bounds {l r : Nat} (h : 2 < r - l + 1) :
    1 ≤ third l r ∧ 3 * third l r ≤ r - l + 1 ∧ l ≤ r - third l r ∧
      l + third l r ≤ r ∧ l + third l r ≤ r - third l r := by
  simp only [third]
  omega

/-! Facts about the conditional swap on lines 106-108 of src/lib.rs. -/

section SwapStep

variable {isLess : α → α → Bool} {v v1 : List α} {l r : Nat} {a b : α}

theorem swap_length (hv1 : v1 = if !(isLess a b) then (v.set l b).set r a else v) :
    v1.length = v.length := by
  subst hv1; split <;> simp

theorem swap_perm (ha : v[l]? = some a) (hb : v[r]? = some b)
    (hv1 : v1 = if !(isLess a b) then (v.set l b).set r a else v) :
    List.Perm v1 v := by
  subst hv1
  split
  · exact set_set_perm v l r a b ha hb
  · exact List.Perm.refl v

theorem swap_agree (hv1 : v1 = if !(isLess a b) then (v.set l b).set r a else v) :
    ∀ i, i ≠ l → i ≠ r → v1[i]? = v[i]? := by
  subst hv1
  intro i hil hir
  split
  · rw [List.getElem?_set_ne (Ne.symm hir), List.getElem?_set_ne (Ne.symm hil)]
  · rfl

theorem swap_endpoints (asym : ∀ x y, isLess x y → ¬ isLess y x)
    (ha : v[l]? = some a) (hb : v[r]? = some b)
    (hv1 : v1 = if !(isLess a b) then (v.set l b).set r a else v) :
    ∃ a1 b1, v1[l]? = some a1 ∧ v1[r]? = some b1 ∧ ¬ isLess b1 a1 := by
  have hl : l < v.length := (List.getElem?_eq_some.mp ha).1
  have hr : r < v.length := (List.getElem?_eq_some.mp hb).1
  subst hv1
  by_cases hab : isLess a b
  · rw [if_neg (by simp [hab])]
    exact ⟨a, b, ha, hb, asym a b hab⟩
  · rw [if_pos (by simp [hab])]
    by_cases hlr : l = r
    · subst hlr
      have hab2 : a = b := by
        rw [ha] at hb
        exact (Option.some.injEq a b).mp hb
      subst hab2
      refine ⟨a, a, ?_, ?_, hab⟩ <;>
        simp [List.getElem?_set_self (by simpa using hl)]
    · refine ⟨b, a, ?_, ?_, hab⟩
      · rw [List.getElem?_set_ne (fun hh => hlr hh.symm),
          List.getElem?_set_self hl]
      · rw [List.getElem?_set_self (by simpa using hr)]

end SwapStep

/-! Consequences of the total-order hypotheses on the predicate. -/

theorem isLess_of_nlt_of_isLess {isLess : α → α → Bool}
    (nltTrans : ∀ x y z, ¬ isLess y x → ¬ isLess z y → ¬ isLess z x)
    {a b c : α} (hba : ¬ isLess b a) (hbc : isLess b c) : isLess a c := by
  by_cases hn : isLess a c
  · exact hn
  · exact absurd hbc (nltTrans c a b hn hba)

/-! The core never panics and preserves the length, under the precondition
left ≤ right < length that the wrappers establish. -/

theorem stooge_sort_some (isLess : α → α → Bool) (left right : Nat)
    (v : List α) (h1 : left ≤ right) (h2 : right < v.length) :
    ∃ w, stooge_sort isLess v left right = some w ∧ w.length = v.length ∧
      (∀ i, i < left ∨ right < i → w[i]? = v[i]?) ∧ List.Perm w v := by
  have hl : left < v.length := by omega
  have ha := List.getElem?_eq_getElem hl
  have hb := List.getElem?_eq_getElem h2
  rw [stooge_sort_eq isLess v left right _ _ ha hb]
  set v1 : List α := if !(isLess v[left] v[right])
    then (v.set left v[right]).set right v[left] else v with hv1def
  have hv1len : v1.length = v.length := swap_length hv1def
  have hv1perm : List.Perm v1 v := swap_perm ha hb hv1def
  have hv1agree : ∀ i, i ≠ left → i ≠ right → v1[i]? = v[i]? :=
    swap_agree hv1def
  by_cases h3 : right - left + 1 > 2
  · rw [if_pos h3]
    obtain ⟨ht1, ht3, htl, htr, htm⟩ := third_bounds h3
    obtain ⟨w2, hw2, hw2len, hw2agree, hw2perm⟩ := stooge_sort_some isLess left
      (right - third left right) v1 htl (by rw [hv1len]; omega)
    rw [hw2, Option.some_bind]
    obtain ⟨w3, hw3, hw3len, hw3agree, hw3perm⟩ := stooge_sort_some isLess
      (left + third left right) right w2 htr (by rw [hw2len, hv1len]; omega)
    rw [hw3, Option.some_bind]
    obtain ⟨w4, hw4, hw4len, hw4agree, hw4perm⟩ := stooge_sort_some isLess left
      (right - third left right) w3 htl
      (by rw [hw3len, hw2len, hv1len]; omega)
    refine ⟨w4, hw4, by rw [hw4len, hw3len, hw2len, hv1len], ?_, ?_⟩
    · intro i hi
      have e1 : w4[i]? = w3[i]? := hw4agree i (by omega)
      have e2 : w3[i]? = w2[i]? := hw3agree i (by omega)
      have e3 : w2[i]? = v1[i]? := hw2agree i (by omega)
      have e4 : v1[i]? = v[i]? := hv1agree i (by omega) (by omega)
      rw [e1, e2, e3, e4]
    · exact ((hw4perm.trans hw3perm).trans hw2perm).trans hv1perm
  · rw [if_neg h3]
    exact ⟨v1, rfl, hv1len,
      (fun i hi => hv1agree i (by omega) (by omega)), hv1perm⟩
termination_by right - left
decreasing_by
  · simp only [third] at *; omega
  · simp only [third] at *; omega
  · simp only [third] at *; omega

/-! The counting argument behind stooge sort: before the last recursive call,
every element of the first third is not-after every element of the final
third, because the sorted first two-thirds put at least n - 2t witnesses
not-below it into the window of the middle call, and the sorted middle window
can keep at most t - 1 of them strictly below a final-third position. -/

theorem sorted_suffix_ge (isLess : α → α → Bool)
    (nltTrans : ∀ x y z, ¬ isLess y x → ¬ isLess z y → ¬ isLess z x)
    {v2 v3 : List α} {l r t : Nat}
    (hlen2 : r < v2.length)
    (ht1 : 1 ≤ t) (ht3 : 3 * t ≤ r - l + 1) (hlr : l ≤ r)
    (hs2 : sortedOn isLess v2 l (r - t))
    (hs3 : sortedOn isLess v3 (l + t) r)
    (hsl : List.Perm (slice v3 (l + t) r) (slice v2 (l + t) r))
    {p q : Nat} {x y : α}
    (hp1 : l ≤ p) (hp2 : p < l + t) (hx : v2[p]? = some x)
    (hq1 : r - t < q) (hq2 : r ≥ q) (hy : v3[q]? = some y) :
    ¬ isLess y x := by
  intro hcon
  have hpred : ∀ e ∈ slice v2 (l + t) (r - t), (!(isLess e x)) = true := by
    intro e he
    obtain ⟨m, hm1, hm2, hme⟩ := (mem_slice_iff v2 (l + t) (r - t) e).mp he
    have hne : ¬ isLess e x := hs2 p m x e hp1 (by omega) hm2 hx hme
    simpa using hne
  have hsplit2 : slice v2 (l + t) r
      = slice v2 (l + t) (r - t) ++ slice v2 (r - t + 1) r :=
    slice_split v2 (by omega) (by omega)
  have hlen22 : (slice v2 (l + t) (r - t)).length = (r - t) + 1 - (l + t) :=
    length_slice v2 (l + t) (r - t) (by omega) (by omega)
  have hcount2 : (r - t) + 1 - (l + t)
      ≤ (slice v2 (l + t) r).countP (fun e => !(isLess e x)) := by
    rw [hsplit2, List.countP_append]
    have hfull := List.countP_eq_length.mpr hpred
    omega
  have hsplit3 : slice v3 (l + t) r = slice v3 (l + t) q ++ slice v3 (q + 1) r :=
    slice_split v3 (by omega) (by omega)
  have hnone : ∀ e ∈ slice v3 (l + t) q, ¬ ((!(isLess e x)) = true) := by
    intro e he
    obtain ⟨m, hm1, hm2, hme⟩ := (mem_slice_iff v3 (l + t) q e).mp he
    rcases Nat.lt_or_ge m q with hmq | hmq
    · have hye : ¬ isLess y e := hs3 m q e y hm1 hmq hq2 hme hy
      have hex : isLess e x := isLess_of_nlt_of_isLess nltTrans hye hcon
      simp [hex]
    · have hmq2 : m = q := by omega
      subst hmq2
      rw [hme] at hy
      have hey : e = y := Option.some_inj.mp hy
      subst hey
      simp [hcon]
  have hz : (slice v3 (l + t) q).countP (fun e => !(isLess e x)) = 0 :=
    List.countP_eq_zero.mpr hnone
  have hup : (slice v3 (q + 1) r).countP (fun e => !(isLess e x)) ≤ r - q :=
    le_trans (List.countP_le_length (fun e => !(isLess e x)))
      (le_trans (length_slice_le v3 (q + 1) r) (by omega))
  have hcount3 : (slice v3 (l + t) r).countP (fun e => !(isLess e x)) ≤ r - q := by
    rw [hsplit3, List.countP_append, hz]
    omega
  have heq : (slice v3 (l + t) r).countP (fun e => !(isLess e x))
      = (slice v2 (l + t) r).countP (fun e => !(isLess e x)) :=
    hsl.countP_eq (fun e => !(isLess e x))
  omega

/-- Master specification of the recursive core: given the precondition the
wrappers establish and a predicate that is asymmetric and whose negation is
transitive, the core succeeds, preserves the length, leaves positions outside
[left, right] untouched, permutes the list, and sorts the range. -/
theorem stooge_sort_spec (isLess : α → α → Bool)
    (asym : ∀ x y, isLess x y → ¬ isLess y x)
    (nltTrans : ∀ x y z, ¬ isLess y x → ¬ isLess z y → ¬ isLess z x)
    (left right : Nat) (v : List α) (h1 : left ≤ right) (h2 : right < v.length) :
    ∃ w, stooge_sort isLess v left right = some w ∧
      w.length = v.length ∧
      (∀ i, i < left ∨ right < i → w[i]? = v[i]?) ∧
      List.Perm w v ∧
      sortedOn isLess w left right := by
  have hl : left < v.length := by omega
  have ha := List.getElem?_eq_getElem hl
  have hb := List.getElem?_eq_getElem h2
  rw [stooge_sort_eq isLess v left right _ _ ha hb]
  set v1 : List α := if !(isLess v[left] v[right])
    then (v.set left v[right]).set right v[left] else v with hv1def
  have hv1len : v1.length = v.length := swap_length hv1def
  have hv1perm : List.Perm v1 v := swap_perm ha hb hv1def
  have hv1agree : ∀ i, i ≠ left → i ≠ right → v1[i]? = v[i]? :=
    swap_agree hv1def
  obtain ⟨a1, b1, ha1, hb1, hord1⟩ := swap_endpoints asym ha hb hv1def
  by_cases h3 : right - left + 1 > 2
  · rw [if_pos h3]
    obtain ⟨ht1, ht3, htl, htr, htm⟩ := third_bounds h3
    obtain ⟨v2, hv2, hv2len, hv2agree, hv2perm, hv2sorted⟩ :=
      stooge_sort_spec isLess asym nltTrans left (right - third left right) v1
        htl (by rw [hv1len]; omega)
    rw [hv2, Option.some_bind]
    obtain ⟨v3, hv3, hv3len, hv3agree, hv3perm, hv3sorted⟩ :=
      stooge_sort_spec isLess asym nltTrans (left + third left right) right v2
        htr (by rw [hv2len, hv1len]; omega)
    rw [hv3, Option.some_bind]
    obtain ⟨w, hw, hwlen, hwagree, hwperm, hwsorted⟩ :=
      stooge_sort_spec isLess asym nltTrans left (right - third left right) v3
        htl (by rw [hv3len, hv2len, hv1len]; omega)
    refine ⟨w, hw, ?_, ?_, ?_, ?_⟩
    · rw [hwlen, hv3len, hv2len, hv1len]
    · intro i hi
      have e1 : w[i]? = v3[i]? := hwagree i (by omega)
      have e2 : v3[i]? = v2[i]? := hv3agree i (by omega)
      have e3 : v2[i]? = v1[i]? := hv2agree i (by omega)
      have e4 : v1[i]? = v[i]? := hv1agree i (by omega) (by omega)
      rw [e1, e2, e3, e4]
    · exact ((hwperm.trans hv3perm).trans hv2perm).trans hv1perm
    · intro i j c d hi hij hj hic hjd
      rcases Nat.lt_or_ge (right - third left right) j with hjc | hjc
      · have hwj : w[j]? = v3[j]? := hwagree j (Or.inr hjc)
        have hjd3 : v3[j]? = some d := by rw [← hwj]; exact hjd
        rcases Nat.lt_or_ge (right - third left right) i with hic2 | hic2
        · have hwi : w[i]? = v3[i]? := hwagree i (Or.inr hic2)
          have hic3 : v3[i]? = some c := by rw [← hwi]; exact hic
          exact hv3sorted i j c d (by omega) hij hj hic3 hjd3
        · have hslw : List.Perm (slice w left (right - third left right))
              (slice v3 left (right - third left right)) :=
            slice_perm_of_perm_agree hwperm hwagree htl
          have hcmem : c ∈ slice w left (right - third left right) :=
            (mem_slice_iff w left (right - third left right) c).mpr
              ⟨i, hi, hic2, hic⟩
          have hcmem3 : c ∈ slice v3 left (right - third left right) :=
            hslw.mem_iff.mp hcmem
          obtain ⟨p, hp1, hp2, hpc⟩ :=
            (mem_slice_iff v3 left (right - third left right) c).mp hcmem3
          rcases Nat.lt_or_ge p (left + third left right) with hpt | hpt
          · have hslv3 : List.Perm (slice v3 (left + third left right) right)
                (slice v2 (left + third left right) right) :=
              slice_perm_of_perm_agree hv3perm hv3agree htr
            have hpc2 : v2[p]? = some c := by
              rw [← hv3agree p (Or.inl hpt)]; exact hpc
            exact sorted_suffix_ge isLess nltTrans
              (by rw [hv2len, hv1len]; exact h2) ht1 ht3 h1 hv2sorted
              hv3sorted hslv3 hp1 hpt hpc2 hjc hj hjd3
          · exact hv3sorted p j c d hpt (by omega) hj hpc hjd3
      · exact hwsorted i j c d hi hij hjc hic hjd
  · rw [if_neg h3]
    refine ⟨v1, rfl, hv1len,
      (fun i hi => hv1agree i (by omega) (by omega)), hv1perm, ?_⟩
    intro i j c d hi hij hj hic hjd
    have hil : i = left := by omega
    have hjr : j = right := by omega
    subst hil; subst hjr
    rw [hic] at ha1
    rw [hjd] at hb1
    have hc : c = a1 := Option.some_inj.mp ha1
    have hd : d = b1 := Option.some_inj.mp hb1
    rw [hc, hd]
    exact hord1
termination_by right - left
decreasing_by
  · simp only [third] at *; omega
  · simp only [third] at *; omega
  · simp only [third] at *; omega

/-! Entry-point level lemmas: the three wrappers share the guard
`self.is_empty() || self.len() == 1` and the call shape
`stooge_sort(self, 0, self.len() - 1, pred)`. -/

theorem entry_cond_of_short {v : List α} (h : v.length ≤ 1) :
    (v.isEmpty || v.length == 1) = true := by
  rcases v with _ | ⟨x, t⟩
  · simp
  · rw [Bool.or_eq_true, beq_iff_eq]
    right
    simp only [List.length_cons] at h ⊢
    omega

theorem short_of_entry_cond {v : List α}
    (h : (v.isEmpty || v.length == 1) = true) : v.length ≤ 1 := by
  rcases v with _ | ⟨x, t⟩
  · simp
  · rw [Bool.or_eq_true, beq_iff_eq] at h
    rcases h with h | h
    · exact absurd h (by simp)
    · simp only [List.length_cons] at h ⊢
      omega

theorem long_of_not_entry_cond {v : List α}
    (h : ¬ ((v.isEmpty || v.length == 1) = true)) : 2 ≤ v.length := by
  rcases v with _ | ⟨x, _ | ⟨y, t⟩⟩ <;> simp_all

theorem entry_spec (isLess : α → α → Bool)
    (asym : ∀ x y, isLess x y → ¬ isLess y x)
    (nltTrans : ∀ x y z, ¬ isLess y x → ¬ isLess z y → ¬ isLess z x)
    (v : List α) :
    ∃ w, (if v.isEmpty || v.length == 1 then some v
        else stooge_sort isLess v 0 (v.length - 1)) = some w ∧
      w.length = v.length ∧ List.Perm w v ∧
      List.Chain' (fun a b => ¬ isLess b a) w := by
  by_cases h : (v.isEmpty || v.length == 1) = true
  · rw [if_pos h]
    refine ⟨v, rfl, rfl, List.Perm.refl v, ?_⟩
    have h1 := short_of_entry_cond h
    rcases v with _ | ⟨x, _ | ⟨y, t⟩⟩
    · exact List.chain'_nil
    · exact List.chain'_singleton x
    · simp at h1
  · rw [if_neg h]
    have hlen := long_of_not_entry_cond h
    obtain ⟨w, hw, hwlen, hwagree, hwperm, hwsorted⟩ :=
      stooge_sort_spec isLess asym nltTrans 0 (v.length - 1) v (by omega)
        (by omega)
    refine ⟨w, hw, hwlen, hwperm, ?_⟩
    rw [List.chain'_iff_get]
    intro k hk
    have hk1 : k < w.length := by omega
    have hk2 : k + 1 < w.length := by omega
    have e1 : w[k]? = some (w.get ⟨k, hk1⟩) := by simp
    have e2 : w[k + 1]? = some (w.get ⟨k + 1, hk2⟩) := by simp
    exact hwsorted k (k + 1) _ _ (Nat.zero_le k) (Nat.lt_succ_self k)
      (by omega) e1 e2

theorem entry_perm (isLess : α → α → Bool) (v : List α) :
    ∃ w, (if v.isEmpty || v.length == 1 then some v
        else stooge_sort isLess v 0 (v.length - 1)) = some w ∧
      w.length = v.length ∧ List.Perm w v := by
  by_cases h : (v.isEmpty || v.length == 1) = true
  · rw [if_pos h]
    exact ⟨v, rfl, rfl, List.Perm.refl v⟩
  · rw [if_neg h]
    have hlen := long_of_not_entry_cond h
    obtain ⟨w, hw, hwlen, hwagree, hwperm⟩ :=
      stooge_sort_some isLess 0 (v.length - 1) v (by omega) (by omega)
    exact ⟨w, hw, hwlen, hwperm⟩

/-! Discharging the total-order hypotheses for the predicates the wrappers
pass to the core. -/

theorem decide_lt_asym [LinearOrder α] :
    ∀ x y : α, decide (x < y) = true → ¬ (decide (y < x) = true) := by
  intro x y h
  simp only [decide_eq_true_eq] at *
  exact lt_asymm h

theorem decide_lt_nltTrans [LinearOrder α] :
    ∀ x y z : α, ¬ (decide (y < x) = true) → ¬ (decide (z < y) = true) →
      ¬ (decide (z < x) = true) := by
  intro x y z h1 h2
  simp only [decide_eq_true_eq, not_lt] at *
  exact le_trans h1 h2

theorem key_lt_asym [LinearOrder κ] (f : α → κ) :
    ∀ x y : α, decide (f x < f y) = true → ¬ (decide (f y < f x) = true) :=
  fun x y h => decide_lt_asym (f x) (f y) h

theorem key_lt_nltTrans [LinearOrder κ] (f : α → κ) :
    ∀ x y z : α, ¬ (decide (f y < f x) = true) →
      ¬ (decide (f z < f y) = true) → ¬ (decide (f z < f x) = true) :=
  fun x y z h1 h2 => decide_lt_nltTrans (f x) (f y) (f z) h1 h2

theorem ordering_beq_lt (o : Ordering) :
    ((o == Ordering.lt) = true) ↔ o = Ordering.lt := by
  cases o <;> decide

theorem cmp_lt_asym (compare : α → α → Ordering)
    (hasym : ∀ x y, compare x y = Ordering.lt → compare y x ≠ Ordering.lt) :
    ∀ x y : α, (compare x y == Ordering.lt) = true →
      ¬ ((compare y x == Ordering.lt) = true) := by
  intro x y h
  rw [ordering_beq_lt] at h ⊢
  exact hasym x y h

theorem cmp_lt_nltTrans (compare : α → α → Ordering)
    (htrans : ∀ x y z, compare y x ≠ Ordering.lt → compare z y ≠ Ordering.lt →
      compare z x ≠ Ordering.lt) :
    ∀ x y z : α, ¬ ((compare y x == Ordering.lt) = true) →
      ¬ ((compare z y == Ordering.lt) = true) →
      ¬ ((compare z x == Ordering.lt) = true) := by
  intro x y z h1 h2
  rw [ordering_beq_lt] at h1 h2 ⊢
  exact htrans x y z h1 h2

/-! Idempotence: on a range already sorted for a predicate that equates
incomparable elements, the core is the identity. -/

theorem stooge_sort_fix (isLess : α → α → Bool)
    (antisym : ∀ x y, ¬ isLess x y → ¬ isLess y x → x = y)
    (left right : Nat) (v : List α) (h1 : left ≤ right) (h2 : right < v.length)
    (hpair : ∀ i j a b, left ≤ i → i < j → j ≤ right →
      v[i]? = some a → v[j]? = some b → ¬ isLess b a) :
    stooge_sort isLess v left right = some v := by
  have hl : left < v.length := by omega
  have ha := List.getElem?_eq_getElem hl
  have hb := List.getElem?_eq_getElem h2
  rw [stooge_sort_eq isLess v left right _ _ ha hb]
  have hv1 : (if !(isLess v[left] v[right])
      then (v.set left v[right]).set right v[left] else v) = v := by
    by_cases hab : isLess v[left] v[right]
    · rw [if_neg (by simp [hab])]
    · rw [if_pos (by simp [hab])]
      have heq : v[left] = v[right] := by
        rcases Nat.lt_or_ge left right with hlt | hge
        · exact antisym _ _ hab
            (hpair left right _ _ (le_refl left) hlt (le_refl right) ha hb)
        · have hee : left = right := by omega
          simp [hee]
      calc (v.set left v[right]).set right v[left]
          = (v.set left v[left]).set right v[left] := by rw [← heq]
        _ = v.set right v[left] := by rw [set_self v left _ ha]
        _ = v.set right v[right] := by rw [heq]
        _ = v := set_self v right _ hb
  rw [hv1]
  by_cases h3 : right - left + 1 > 2
  · rw [if_pos h3]
    obtain ⟨ht1, ht3, htl, htr, htm⟩ := third_bounds h3
    rw [stooge_sort_fix isLess antisym left (right - third left right) v htl
      (by omega)
      (fun i j a b hi hij hj hia hjb =>
        hpair i j a b hi hij (by omega) hia hjb)]
    rw [Option.some_bind]
    rw [stooge_sort_fix isLess antisym (left + third left right) right v htr h2
      (fun i j a b hi hij hj hia hjb =>
        hpair i j a b (by omega) hij hj hia hjb)]
    rw [Option.some_bind]
    exact stooge_sort_fix isLess antisym left (right - third left right) v htl
      (by omega)
      (fun i j a b hi hij hj hia hjb =>
        hpair i j a b hi hij (by omega) hia hjb)
  · rw [if_neg h3]
termination_by right - left
decreasing_by
  all_goals (simp only [third] at *; omega)

theorem entry_fix (isLess : α → α → Bool)
    (antisym : ∀ x y, ¬ isLess x y → ¬ isLess y x → x = y)
    (nltTrans : ∀ x y z, ¬ isLess y x → ¬ isLess z y → ¬ isLess z x)
    (v : List α) (hs : List.Chain' (fun a b => ¬ isLess b a) v) :
    (if v.isEmpty || v.length == 1 then some v
      else stooge_sort isLess v 0 (v.length - 1)) = some v := by
  by_cases h : (v.isEmpty || v.length == 1) = true
  · rw [if_pos h]
  · rw [if_neg h]
    have hlen := long_of_not_entry_cond h
    apply stooge_sort_fix isLess antisym 0 (v.length - 1) v (by omega)
      (by omega)
    haveI : IsTrans α (fun a b => ¬ isLess b a) :=
      ⟨fun a b c hab hbc => nltTrans a b c hab hbc⟩
    have hp := List.chain'_iff_pairwise.mp hs
    rw [List.pairwise_iff_getElem] at hp
    intro i j a b hi hij hj hia hjb
    obtain ⟨hi2, hia2⟩ := List.getElem?_eq_some.mp hia
    obtain ⟨hj2, hjb2⟩ := List.getElem?_eq_some.mp hjb
    subst hia2
    subst hjb2
    exact hp i j hi2 hj2 hij

theorem natural_entry_fix [LinearOrder α] {v : List α}
    (hs : List.Chain' (fun a b : α => a ≤ b) v) :
    Stooge.stooge_sort v = some v := by
  show (if v.isEmpty || v.length == 1 then some v
      else stooge_sort (fun a b => decide (a < b)) v 0 (v.length - 1)) = some v
  by_cases h : (v.isEmpty || v.length == 1) = true
  · rw [if_pos h]
  · rw [if_neg h]
    have hlen := long_of_not_entry_cond h
    apply stooge_sort_fix
    · intro x y hxy hyx
      simp only [decide_eq_true_eq, not_lt] at hxy hyx
      exact le_antisymm hyx hxy
    · omega
    · omega
    · have hp : List.Pairwise (fun a b : α => a ≤ b) v :=
        List.chain'_iff_pairwise.mp hs
      rw [List.pairwise_iff_getElem] at hp
      intro i j a b hi hij hj hia hjb
      obtain ⟨hi2, hia2⟩ := List.getElem?_eq_some.mp hia
      obtain ⟨hj2, hjb2⟩ := List.getElem?_eq_some.mp hjb
      have hle := hp i j hi2 hj2 hij
      subst hia2
      subst hjb2
      simp only [decide_eq_true_eq, not_lt]
      exact hle

theorem natural_entry_chain [LinearOrder α] {v w : List α}
    (h : Stooge.stooge_sort v = some w) :
    List.Chain' (fun a b : α => a ≤ b) w := by
  obtain ⟨w0, hw0, hlen0, hperm0, hchain0⟩ :=
    entry_spec (fun a b : α => decide (a < b)) decide_lt_asym
      decide_lt_nltTrans v
  have hww : Stooge.stooge_sort v = some w0 := hw0
  rw [h] at hww
  have hww2 : w = w0 := Option.some_inj.mp hww
  subst hww2
  refine hchain0.imp ?_
  intro a b hab
  simp only [decide_eq_true_eq, not_lt] at hab
  exact hab

/-! The instrumented core always performs at least one comparison. -/

theorem stooge_sort_instr_comparisons (isLess : α → α → Bool) (v : List α)
    (l r : Nat) (w : List α) (c s : Nat)
    (h : stooge_sort_instr isLess v l r = some (w, c, s)) : 1 ≤ c := by
  rw [stooge_sort_instr] at h
  rcases hva : v[l]? with _ | a
  · rw [hva] at h
    simp at h
  rw [hva] at h
  rcases hvb : v[r]? with _ | b
  · rw [hvb] at h
    simp at h
  rw [hvb] at h
  simp only [Option.pure_def, Option.bind_eq_bind, Option.some_bind] at h
  split at h
  · obtain ⟨p2, hp2, h⟩ := Option.bind_eq_some.mp h
    obtain ⟨p3, hp3, h⟩ := Option.bind_eq_some.mp h
    obtain ⟨p4, hp4, h⟩ := Option.bind_eq_some.mp h
    have hinj := Option.some_inj.mp h
    simp only [Prod.mk.injEq] at hinj
    omega
  · have hinj := Option.some_inj.mp h
    simp only [Prod.mk.injEq] at hinj
    omega

/-! Recursion depth bound. -/

theorem stoogeDepth_le (l r : Nat) : stoogeDepth l r ≤ r - l + 1 := by
  rw [stoogeDepth]
  split
  · next h3 =>
    have d1 := stoogeDepth_le l (r - third l r)
    have d2 := stoogeDepth_le (l + third l r) r
    have hb := third_bounds h3
    simp only [third] at *
    omega
  · omega
termination_by r - l
decreasing_by
  all_goals (simp only [third] at *; omega)

/-! Claim theorems. -/

/-- C1: for every finite sequence and every predicate that is a total order
(formalised by the two consequences used throughout: asymmetry of the strict
predicate and transitivity of its negation), after each of the three entry
points returns, every adjacent pair of the result is in non-decreasing order:
the predicate does not report the earlier element as strictly greater than
the later one. -/
theorem claim_order_property {α : Type u} {κ : Type v} [LinearOrder α]
    [LinearOrder κ] (compare : α → α → Ordering)
    (hasym : ∀ x y, compare x y = Ordering.lt → compare y x ≠ Ordering.lt)
    (htrans : ∀ x y z, compare y x ≠ Ordering.lt → compare z y ≠ Ordering.lt →
      compare z x ≠ Ordering.lt)
    (f : α → κ) (v : List α) :
    (∀ w, Stooge.stooge_sort v = some w →
      List.Chain' (fun a b => ¬ b < a) w) ∧
    (∀ w, Stooge.stooge_sort_by compare v = some w →
      List.Chain' (fun a b => compare b a ≠ Ordering.lt) w) ∧
    (∀ w, Stooge.stooge_sort_by_key f v = some w →
      List.Chain' (fun a b => ¬ f b < f a) w) := by
  refine ⟨?_, ?_, ?_⟩
  · intro w h
    obtain ⟨w0, hw0, hlen0, hperm0, hchain0⟩ :=
      entry_spec (fun a b : α => decide (a < b)) decide_lt_asym
        decide_lt_nltTrans v
    have hww : Stooge.stooge_sort v = some w0 := hw0
    rw [h] at hww
    obtain rfl := Option.some_inj.mp hww
    refine hchain0.imp ?_
    intro a b hab
    simpa using hab
  · intro w h
    obtain ⟨w0, hw0, hlen0, hperm0, hchain0⟩ :=
      entry_spec (fun a b : α => compare a b == Ordering.lt)
        (cmp_lt_asym compare hasym) (cmp_lt_nltTrans compare htrans) v
    have hww : Stooge.stooge_sort_by compare v = some w0 := hw0
    rw [h] at hww
    obtain rfl := Option.some_inj.mp hww
    refine hchain0.imp ?_
    intro a b hab
    rw [ordering_beq_lt] at hab
    exact hab
  · intro w h
    obtain ⟨w0, hw0, hlen0, hperm0, hchain0⟩ :=
      entry_spec (fun a b : α => decide (f a < f b)) (key_lt_asym f)
        (key_lt_nltTrans f) v
    have hww : Stooge.stooge_sort_by_key f v = some w0 := hw0
    rw [h] at hww
    obtain rfl := Option.some_inj.mp hww
    refine hchain0.imp ?_
    intro a b hab
    simpa using hab

/-- Witness for C1 at the concrete input [2, 1, 3] over the integers. -/
theorem claim_order_property_witness :
    List.Chain' (fun a b : ℤ => ¬ b < a) [1, 2, 3] := by
  have hch : ∀ a b : ℤ,
      ((if a < b then Ordering.lt else Ordering.gt) = Ordering.lt) ↔ a < b := by
    intro a b
    split
    · next hl => simp [hl]
    · next hl => simp [hl]
  have h := (claim_order_property
    (fun a b : ℤ => if a < b then Ordering.lt else Ordering.gt)
    (by intro x y hxy
        have hxy2 : (if x < y then Ordering.lt else Ordering.gt)
            = Ordering.lt := hxy
        rw [hch] at hxy2
        show ¬ ((if y < x then Ordering.lt else Ordering.gt) = Ordering.lt)
        rw [hch]
        omega)
    (by intro x y z h1 h2
        have h12 : ¬ ((if y < x then Ordering.lt else Ordering.gt)
            = Ordering.lt) := h1
        have h22 : ¬ ((if z < y then Ordering.lt else Ordering.gt)
            = Ordering.lt) := h2
        rw [hch] at h12 h22
        show ¬ ((if z < x then Ordering.lt else Ordering.gt) = Ordering.lt)
        rw [hch]
        omega)
    (fun k : ℤ => k) [2, 1, 3]).1
  apply h
  simp [Stooge.stooge_sort, stooge_sort, third]

/-- C2: after any of the three entry points returns, the sequence holds the
same multiset of elements as before: the output is a permutation of the
input, and in particular the length is unchanged.  No order assumption on
the predicate is needed. -/
theorem claim_permutation {α : Type u} {κ : Type v} [LinearOrder α]
    [LinearOrder κ] (compare : α → α → Ordering) (f : α → κ) (v : List α) :
    (∀ w, Stooge.stooge_sort v = some w →
      List.Perm w v ∧ w.length = v.length) ∧
    (∀ w, Stooge.stooge_sort_by compare v = some w →
      List.Perm w v ∧ w.length = v.length) ∧
    (∀ w, Stooge.stooge_sort_by_key f v = some w →
      List.Perm w v ∧ w.length = v.length) := by
  refine ⟨?_, ?_, ?_⟩
  · intro w h
    obtain ⟨w0, hw0, hlen0, hperm0⟩ :=
      entry_perm (fun a b : α => decide (a < b)) v
    have hww : Stooge.stooge_sort v = some w0 := hw0
    rw [h] at hww
    obtain rfl := Option.some_inj.mp hww
    exact ⟨hperm0, hlen0⟩
  · intro w h
    obtain ⟨w0, hw0, hlen0, hperm0⟩ :=
      entry_perm (fun a b : α => compare a b == Ordering.lt) v
    have hww : Stooge.stooge_sort_by compare v = some w0 := hw0
    rw [h] at hww
    obtain rfl := Option.some_inj.mp hww
    exact ⟨hperm0, hlen0⟩
  · intro w h
    obtain ⟨w0, hw0, hlen0, hperm0⟩ :=
      entry_perm (fun a b : α => decide (f a < f b)) v
    have hww : Stooge.stooge_sort_by_key f v = some w0 := hw0
    rw [h] at hww
    obtain rfl := Option.some_inj.mp hww
    exact ⟨hperm0, hlen0⟩

/-- Witness for C2 at the concrete input [2, 1, 3] over the integers. -/
theorem claim_permutation_witness :
    List.Perm ([1, 2, 3] : List ℤ) [2, 1, 3] ∧ (3 : Nat) = 3 := by
  have h := (claim_permutation (fun a b : ℤ => Ordering.eq)
    (fun k : ℤ => k) [2, 1, 3]).1 [1, 2, 3]
  refine ?_
  have hv : Stooge.stooge_sort ([2, 1, 3] : List ℤ) = some [1, 2, 3] := by
    simp [Stooge.stooge_sort, stooge_sort, third]
  obtain ⟨hp, hl⟩ := h hv
  exact ⟨hp, rfl⟩

/-- C3: the recursive core, called on an inclusive range whose endpoint
accesses succeed, first swaps the endpoints exactly when the left element is
not strictly less than the right one, then recurses if and only if the range
has more than 2 elements, with third = floor((right - left + 1) / 3), on
[left, right - third], then [left + third, right], then [left, right - third]
again, in that order. -/
theorem claim_core_steps (isLess : α → α → Bool) (v : List α) (l r : Nat)
    (a b : α) (ha : v[l]? = some a) (hb : v[r]? = some b) :
    third l r = (r - l + 1) / 3 ∧
    stooge_sort isLess v l r =
      (if r - l + 1 > 2 then
        (stooge_sort isLess (if !(isLess a b) then (v.set l b).set r a else v)
            l (r - third l r)).bind fun v2 =>
          (stooge_sort isLess v2 (l + third l r) r).bind fun v3 =>
            stooge_sort isLess v3 l (r - third l r)
      else some (if !(isLess a b) then (v.set l b).set r a else v)) :=
  ⟨rfl, stooge_sort_eq isLess v l r a b ha hb⟩

/-- Witness for C3 at the two-element input [2, 1] over the integers. -/
theorem claim_core_steps_witness :
    third 0 1 = (1 - 0 + 1) / 3 ∧
    stooge_sort (fun a b : ℤ => decide (a < b)) [2, 1] 0 1 =
      (if 1 - 0 + 1 > 2 then
        (stooge_sort (fun a b : ℤ => decide (a < b))
            (if !(decide ((2 : ℤ) < 1))
              then (([2, 1] : List ℤ).set 0 1).set 1 2 else [2, 1])
            0 (1 - third 0 1)).bind fun v2 =>
          (stooge_sort (fun a b : ℤ => decide (a < b)) v2 (0 + third 0 1)
              1).bind fun v3 =>
            stooge_sort (fun a b : ℤ => decide (a < b)) v3 0 (1 - third 0 1)
      else some (if !(decide ((2 : ℤ) < 1))
        then (([2, 1] : List ℤ).set 0 1).set 1 2 else [2, 1])) :=
  claim_core_steps (fun a b : ℤ => decide (a < b)) [2, 1] 0 1 2 1 rfl rfl

/-- C4: each recursive call of the core strictly shrinks the inclusive range,
so the recursion terminates, and the recursion depth on a range, hence on a
sequence of length n entered at [0, n - 1], is at most n. -/
theorem claim_termination_depth :
    (∀ l r : Nat, 2 < r - l + 1 →
      r - third l r - l < r - l ∧ r - (l + third l r) < r - l) ∧
    (∀ l r : Nat, stoogeDepth l r ≤ r - l + 1) ∧
    (∀ n : Nat, 1 ≤ n → stoogeDepth 0 (n - 1) ≤ n) := by
  refine ⟨?_, ?_, ?_⟩
  · intro l r h
    simp only [third]
    omega
  · exact stoogeDepth_le
  · intro n hn
    have h := stoogeDepth_le 0 (n - 1)
    omega

/-- Witness for C4 at the concrete range [0, 4] and length 5. -/
theorem claim_termination_depth_witness :
    (2 < 4 - 0 + 1) ∧
    (4 - third 0 4 - 0 < 4 - 0 ∧ 4 - (0 + third 0 4) < 4 - 0) ∧
    (1 ≤ 5) ∧ stoogeDepth 0 (5 - 1) ≤ 5 :=
  ⟨by decide, claim_termination_depth.1 0 4 (by decide), by decide,
    claim_termination_depth.2.2 5 (by decide)⟩

/-- C5: the three entry points are instances of the single recursive core:
stooge_sort equals stooge_sort_by with the natural comparator of the element
type, and stooge_sort_by_key with key function f equals stooge_sort_by with
the comparator comparing f a against f b (the keys being recomputed at each
comparison, which a pure key function makes observationally equal to any
caching strategy). -/
theorem claim_entry_equivalence {α : Type u} {κ : Type v} [LinearOrder α]
    [LinearOrder κ] (f : α → κ) (v : List α) :
    Stooge.stooge_sort v = Stooge.stooge_sort_by (fun a b => compare a b) v ∧
    Stooge.stooge_sort_by_key f v =
      Stooge.stooge_sort_by (fun a b => compare (f a) (f b)) v := by
  constructor
  · show (if v.isEmpty || v.length == 1 then some v
        else stooge_sort (fun a b : α => decide (a < b)) v 0 (v.length - 1))
      = (if v.isEmpty || v.length == 1 then some v
        else stooge_sort (fun a b : α => compare a b == Ordering.lt) v 0
          (v.length - 1))
    have he : (fun a b : α => compare a b == Ordering.lt)
        = fun a b : α => decide (a < b) := by
      funext a b
      rw [Bool.eq_iff_iff, ordering_beq_lt, decide_eq_true_eq]
      exact compare_lt_iff_lt
    rw [he]
  · show (if v.isEmpty || v.length == 1 then some v
        else stooge_sort (fun a b : α => decide (f a < f b)) v 0
          (v.length - 1))
      = (if v.isEmpty || v.length == 1 then some v
        else stooge_sort (fun a b : α => compare (f a) (f b) == Ordering.lt)
          v 0 (v.length - 1))
    have he : (fun a b : α => compare (f a) (f b) == Ordering.lt)
        = fun a b : α => decide (f a < f b) := by
      funext a b
      rw [Bool.eq_iff_iff, ordering_beq_lt, decide_eq_true_eq]
      exact compare_lt_iff_lt
    rw [he]

/-- C6: on an empty or one-element sequence each entry point is a no-op: it
returns the sequence unchanged, and (per the instrumented model, whose guard
branch is the same source line) it performs no comparison and no swap; since
every call of the core performs at least one comparison, the core is never
invoked. -/
theorem claim_noop_short {α : Type u} {κ : Type v} [LinearOrder α]
    [LinearOrder κ] (compare : α → α → Ordering) (f : α → κ) (v : List α)
    (h : v.length ≤ 1) :
    Stooge.stooge_sort v = some v ∧
    Stooge.stooge_sort_by compare v = some v ∧
    Stooge.stooge_sort_by_key f v = some v ∧
    (∀ isLess : α → α → Bool, Stooge.instrumented isLess v = some (v, 0, 0)) ∧
    (∀ (isLess : α → α → Bool) (u : List α) (l r : Nat) (w : List α)
      (c s : Nat), stooge_sort_instr isLess u l r = some (w, c, s) → 1 ≤ c) := by
  have hc := entry_cond_of_short h
  refine ⟨?_, ?_, ?_, ?_, ?_⟩
  · show (if v.isEmpty || v.length == 1 then some v
      else stooge_sort (fun a b : α => decide (a < b)) v 0 (v.length - 1))
      = some v
    rw [if_pos hc]
  · show (if v.isEmpty || v.length == 1 then some v
      else stooge_sort (fun a b : α => compare a b == Ordering.lt) v 0
        (v.length - 1)) = some v
    rw [if_pos hc]
  · show (if v.isEmpty || v.length == 1 then some v
      else stooge_sort (fun a b : α => decide (f a < f b)) v 0
        (v.length - 1)) = some v
    rw [if_pos hc]
  · intro isLess
    show (if v.isEmpty || v.length == 1 then some (v, 0, 0)
      else stooge_sort_instr isLess v 0 (v.length - 1)) = some (v, 0, 0)
    rw [if_pos hc]
  · exact fun isLess u l r w c s hh =>
      stooge_sort_instr_comparisons isLess u l r w c s hh

/-- Witness for C6 at the one-element integer sequence [5]. -/
theorem claim_noop_short_witness :
    Stooge.stooge_sort ([5] : List ℤ) = some [5] ∧
    Stooge.instrumented (fun a b : ℤ => decide (a < b)) [5]
      = some ([5], 0, 0) := by
  have h := claim_noop_short (fun a b : ℤ => Ordering.eq) (fun k : ℤ => k)
    [5] (by decide)
  exact ⟨h.1, h.2.2.2.1 (fun a b : ℤ => decide (a < b))⟩

/-- C7: sorting is idempotent when the order used is a total order on the
values (strictness asymmetric, non-strictness transitive, and incomparable
elements equal): an input already in non-decreasing order is returned
unchanged, and sorting an output a second time returns it unchanged, so
sorting twice equals sorting once, both for the natural entry point and for
the comparator entry point. -/
theorem claim_idempotent {α : Type u} [LinearOrder α]
    (compare : α → α → Ordering)
    (hasym : ∀ x y, compare x y = Ordering.lt → compare y x ≠ Ordering.lt)
    (htrans : ∀ x y z, compare y x ≠ Ordering.lt → compare z y ≠ Ordering.lt →
      compare z x ≠ Ordering.lt)
    (hantisym : ∀ x y, compare x y ≠ Ordering.lt → compare y x ≠ Ordering.lt →
      x = y) :
    (∀ v : List α, List.Chain' (fun a b : α => a ≤ b) v →
      Stooge.stooge_sort v = some v) ∧
    (∀ u w : List α, Stooge.stooge_sort u = some w →
      Stooge.stooge_sort w = some w) ∧
    (∀ v : List α, List.Chain' (fun a b : α => compare b a ≠ Ordering.lt) v →
      Stooge.stooge_sort_by compare v = some v) ∧
    (∀ u w : List α, Stooge.stooge_sort_by compare u = some w →
      Stooge.stooge_sort_by compare w = some w) := by
  have hanti2 : ∀ x y : α, ¬ ((compare x y == Ordering.lt) = true) →
      ¬ ((compare y x == Ordering.lt) = true) → x = y := by
    intro x y h1 h2
    rw [ordering_beq_lt] at h1 h2
    exact hantisym x y h1 h2
  have hfix : ∀ v : List α,
      List.Chain' (fun a b : α => compare b a ≠ Ordering.lt) v →
      Stooge.stooge_sort_by compare v = some v := by
    intro v hs
    show (if v.isEmpty || v.length == 1 then some v
      else stooge_sort (fun a b : α => compare a b == Ordering.lt) v 0
        (v.length - 1)) = some v
    apply entry_fix _ hanti2 (cmp_lt_nltTrans compare htrans) v
    refine hs.imp ?_
    intro a b hab
    rw [ordering_beq_lt]
    exact hab
  refine ⟨fun v hs => natural_entry_fix hs,
    fun u w h => natural_entry_fix (natural_entry_chain h), hfix, ?_⟩
  intro u w h
  obtain ⟨w0, hw0, hlen0, hperm0, hchain0⟩ :=
    entry_spec (fun a b : α => compare a b == Ordering.lt)
      (cmp_lt_asym compare hasym) (cmp_lt_nltTrans compare htrans) u
  have hww : Stooge.stooge_sort_by compare u = some w0 := hw0
  rw [h] at hww
  obtain rfl := Option.some_inj.mp hww
  apply hfix
  refine hchain0.imp ?_
  intro a b hab
  rw [ordering_beq_lt] at hab
  exact hab

/-- Witness for C7 at the sorted integer sequence [1, 2]. -/
theorem claim_idempotent_witness :
    Stooge.stooge_sort ([1, 2] : List ℤ) = some [1, 2] := by
  have hch : ∀ a b : ℤ,
      ((if a < b then Ordering.lt else Ordering.gt) = Ordering.lt) ↔ a < b := by
    intro a b
    split
    · next hl => simp [hl]
    · next hl => simp [hl]
  refine (claim_idempotent
    (fun a b : ℤ => if a < b then Ordering.lt else Ordering.gt)
    ?_ ?_ ?_).1 [1, 2]
    (List.chain'_cons.mpr ⟨by norm_num, List.chain'_singleton 2⟩)
  · intro x y hxy
    have hxy2 : (if x < y then Ordering.lt else Ordering.gt)
        = Ordering.lt := hxy
    rw [hch] at hxy2
    show ¬ ((if y < x then Ordering.lt else Ordering.gt) = Ordering.lt)
    rw [hch]
    omega
  · intro x y z h1 h2
    have h12 : ¬ ((if y < x then Ordering.lt else Ordering.gt)
        = Ordering.lt) := h1
    have h22 : ¬ ((if z < y then Ordering.lt else Ordering.gt)
        = Ordering.lt) := h2
    rw [hch] at h12 h22
    show ¬ ((if z < x then Ordering.lt else Ordering.gt) = Ordering.lt)
    rw [hch]
    omega
  · intro x y h1 h2
    have h12 : ¬ ((if x < y then Ordering.lt else Ordering.gt)
        = Ordering.lt) := h1
    have h22 : ¬ ((if y < x then Ordering.lt else Ordering.gt)
        = Ordering.lt) := h2
    rw [hch] at h12 h22
    omega

/-- C8: the sort is unstable: for the key function taking the second
component, the input [(0,1), (1,0), (2,0)] has the two distinct elements
(1,0) and (2,0) with equal keys in that order, and the output
[(2,0), (1,0), (0,1)] has them in the opposite order. -/
theorem claim_unstable :
    Stooge.stooge_sort_by_key (fun p : ℕ × ℕ => p.2)
      [(0, 1), (1, 0), (2, 0)] = some [(2, 0), (1, 0), (0, 1)] ∧
    List.indexOf ((1, 0) : ℕ × ℕ) [(0, 1), (1, 0), (2, 0)] <
      List.indexOf ((2, 0) : ℕ × ℕ) [(0, 1), (1, 0), (2, 0)] ∧
    List.indexOf ((2, 0) : ℕ × ℕ) [(2, 0), (1, 0), (0, 1)] <
      List.indexOf ((1, 0) : ℕ × ℕ) [(2, 0), (1, 0), (0, 1)] ∧
    ((1, 0) : ℕ × ℕ) ≠ (2, 0) ∧
    ((1, 0) : ℕ × ℕ).2 = ((2, 0) : ℕ × ℕ).2 := by
  refine ⟨?_, by decide, by decide, by decide, rfl⟩
  simp [Stooge.stooge_sort_by_key, stooge_sort, third]

/-- C9: for every range, the third-partition value computed by truncating
integer division agrees with the floor of the exact rational quotient. -/
theorem claim_third_floor (l r : Nat) :
    third l r = Nat.floor (((r - l + 1 : Nat) : ℚ) / 3) := by
  rw [third]
  have h := Nat.floor_div_eq_div (α := ℚ) (r - l + 1) 3
  rw [← h]
  norm_num

/-- C10: the core never goes out of bounds under the precondition
left ≤ right < length: it returns a result (a panic is modelled as none) of
unchanged length; the recursive calls re-establish the precondition
(left ≤ right - third, left + third ≤ right, and the right endpoint never
grows, so no subtraction underflows); and the three wrappers, which call the
core with left = 0 and right = length - 1 only when length ≥ 2, always
return a result. -/
theorem claim_safety {α : Type u} {κ : Type v} [LinearOrder α]
    [LinearOrder κ] (compare : α → α → Ordering) (f : α → κ) :
    (∀ (isLess : α → α → Bool) (l r : Nat) (v : List α), l ≤ r →
      r < v.length →
      ∃ w, stooge_sort isLess v l r = some w ∧ w.length = v.length) ∧
    (∀ l r : Nat, l ≤ r → 2 < r - l + 1 →
      l ≤ r - third l r ∧ l + third l r ≤ r ∧ r - third l r ≤ r ∧
        third l r ≤ r - l) ∧
    (∀ v : List α, ∃ w, Stooge.stooge_sort v = some w) ∧
    (∀ v : List α, ∃ w, Stooge.stooge_sort_by compare v = some w) ∧
    (∀ v : List α, ∃ w, Stooge.stooge_sort_by_key f v = some w) := by
  refine ⟨?_, ?_, ?_, ?_, ?_⟩
  · intro isZ l r v h1 h2
    obtain ⟨w, hw, hlen, hagree, hperm⟩ := stooge_sort_some isZ l r v h1 h2
    exact ⟨w, hw, hlen⟩
  · intro l r h1 h2
    simp only [third]
    omega
  · intro v
    obtain ⟨w, hw, hlen, hperm⟩ :=
      entry_perm (fun a b : α => decide (a < b)) v
    exact ⟨w, hw⟩
  · intro v
    obtain ⟨w, hw, hlen, hperm⟩ :=
      entry_perm (fun a b : α => compare a b == Ordering.lt) v
    exact ⟨w, hw⟩
  · intro v
    obtain ⟨w, hw, hlen, hperm⟩ :=
      entry_perm (fun a b : α => decide (f a < f b)) v
    exact ⟨w, hw⟩

/-- Witness for C10 at the concrete range [0, 1] of the two-element integer
sequence [3, 1]. -/
theorem claim_safety_witness :
    (0 ≤ 1) ∧ (1 < ([3, 1] : List ℤ).length) ∧
    (stooge_sort (fun a b : ℤ => decide (a < b)) [3, 1] 0 1).isSome = true := by
  refine ⟨by decide, by decide, ?_⟩
  obtain ⟨w, hw, hlen⟩ := (claim_safety
    (fun a b : ℤ => Ordering.eq) (fun k : ℤ => k)).1
    (fun a b : ℤ => decide (a < b)) 0 1 [3, 1] (by decide) (by decide)
  rw [hw]
  rfl

end Stoogesort
